import Mathlib

/-!
# Verification of `cs102_pandas.py` (student-roster analytics)

Shallow embedding of the core of `src/homework01/cs102_pandas.py`:

* `gender_identification` — Python `re.search` over the two patronymic
  patterns, embedded as explicit matchers over `List Char`, with Python's
  `\b` word-boundary semantics (XOR of word-ness of the two neighbouring
  characters).  Python's `\w` (Unicode word character) is modelled over the
  character repertoire relevant to this program: ASCII alphanumerics, `_`,
  the Cyrillic block `А`–`я`, and `ё`/`Ё`.
* `find_consecutive_students` — the `diff` / `(diff != 1).cumsum()` /
  `groupby(area).size()` pipeline over the sorted ID column, embedded as
  explicit label computation and chunking.
* the tabular helpers (`value_counts`, homonym counting,
  `faculty_statistics`, `analyze_patronyms`), embedded over lists of rows;
  places where the Python code can raise (`max` of an empty dict, `.at` on
  a missing key) are embedded as `Option`-valued functions returning `none`.
-/

set_option autoImplicit false

namespace CS102

/-! ## Character classes (from the regexes in `gender_identification`) -/

/-- The character class `[А-Яа-я]` of the source regexes: the contiguous
Cyrillic range U+0410 (`А`) … U+044F (`я`).  (`ё`/`Ё` are *not* in it.) -/
def cyr (c : Char) : Bool := 0x410 ≤ c.toNat && c.toNat ≤ 0x44F

/-- The two dash characters admitted by the male pattern class `[А-Яа-я-–]`:
ASCII hyphen and U+2013 (the dash written in the source). -/
def dash (c : Char) : Bool := c == '-' || c == '–'

/-- `cyr` or `dash`: one character of the male pattern's class `[А-Яа-я-–]`. -/
def cyrDash (c : Char) : Bool := cyr c || dash c

/-- Python's `\w` (word character), restricted to the repertoire this
program works over: ASCII alphanumerics, underscore, `А`–`я`, `ё`, `Ё`. -/
def wordChar (c : Char) : Bool :=
  c.isAlphanum || c == '_' || cyr c || c == 'ё' || c == 'Ё'

/-- Whether the last character of the left context is a word character
(`false` on the empty context, as at the start of the string). -/
def lastIsWord (l : List Char) : Bool :=
  match l.getLast? with
  | some c => wordChar c
  | none => false

/-- Whether the first character of the right context is a word character
(`false` on the empty context, as at the end of the string). -/
def headIsWord (l : List Char) : Bool :=
  match l.head? with
  | some c => wordChar c
  | none => false

/-- Python's `\b` at the position between `left` and `right`:
the word-ness of the neighbouring characters differs. -/
def boundaryOk (left right : List Char) : Bool := lastIsWord left != headIsWord right

/-- All ways to cut a string into a left and a right part; position `i`
of `re.search` corresponds to the cut `(s.take i, s.drop i)`. -/
def splits (s : List Char) : List (List Char × List Char) :=
  (List.range (s.length + 1)).map (fun i => (s.take i, s.drop i))

/-! ## The two patterns of `gender_identification` -/

/-- The female endings `(евна|овна|ична|инична)` of
`female_patr = r"\b[А-Яа-я]+(евна|овна|ична|инична)\b"`. -/
def femaleEndings : List (List Char) :=
  ["евна".toList, "овна".toList, "ична".toList, "инична".toList]

/-- The male endings `(ович|евич|ич)` of
`male_patr = r"^\b[А-Яа-я-–]*[А-Яа-я]+(ович|евич|ич)\b"`. -/
def maleEndings : List (List Char) :=
  ["ович".toList, "евич".toList, "ич".toList]

/-- The core `[А-Яа-я]+(евна|овна|ична|инична)` matches `t` entirely:
`t` is all Cyrillic and some female ending is a proper suffix of `t`. -/
def segFemale (t : List Char) : Bool :=
  t.all cyr && femaleEndings.any (fun e => e.isSuffixOf t && decide (e.length < t.length))

/-- Whether the last character of a string is Cyrillic (`false` when empty). -/
def lastCyr (l : List Char) : Bool :=
  match l.getLast? with
  | some c => cyr c
  | none => false

/-- The core `[А-Яа-я-–]*[А-Яа-я]+(ович|евич|ич)` matches `t` entirely:
`t` ends in some male ending `e`, and the part before `e` is a non-empty
string over `[А-Яа-я-–]` whose last character is Cyrillic (the trailing
`[А-Яа-я]+` can always be shrunk to that one letter, and conversely). -/
def segMale (t : List Char) : Bool :=
  maleEndings.any (fun e =>
    e.isSuffixOf t &&
      (let u := t.take (t.length - e.length)
       !u.isEmpty && u.all cyrDash && lastCyr u))

/-- `re.search(female_patr, s)` is truthy: some cut positions carry a
whole-word occurrence of the female core. -/
def femaleSearch (s : List Char) : Bool :=
  (splits s).any (fun pr =>
    boundaryOk pr.1 pr.2 &&
      (splits pr.2).any (fun q => segFemale q.1 && boundaryOk q.1 q.2))

/-- `re.search(male_patr, s)` is truthy: the pattern is anchored by `^\b`,
so the match starts at position 0 (which must be a word boundary) and some
prefix of `s` matches the male core, followed by a word boundary. -/
def maleSearch (s : List Char) : Bool :=
  boundaryOk [] s && (splits s).any (fun q => segMale q.1 && boundaryOk q.1 q.2)

/-- The three results of `gender_identification`. -/
inductive Gender where
  | female
  | male
  | unknown
deriving DecidableEq, Repr

/-- `gender_identification(patronym)`: first the female pattern, then the
male pattern, else `unknown` (lines 54–68 of the source). -/
def gender_identification (patronym : List Char) : Gender :=
  if femaleSearch patronym then Gender.female
  else if maleSearch patronym then Gender.male
  else Gender.unknown

/-! ## Spec-side declarative patterns (for the refinement claim C1) -/

/-- The spec's female pattern, read declaratively: the string contains, as
a whole word, one or more Cyrillic letters followed by one of the endings
`евна`/`овна`/`ична`/`инична`; "whole word" means the neighbouring
characters (when present) are not word characters. -/
def SpecFemale (s : List Char) : Prop :=
  ∃ pre w e post, s = pre ++ w ++ e ++ post ∧ w ≠ [] ∧ w.all cyr = true ∧
    e ∈ femaleEndings ∧ lastIsWord pre = false ∧ headIsWord post = false

/-- The spec's male pattern, read declaratively: anchored at the start of
the string (which must start a word), an optional hyphen/dash-joined
Cyrillic compound, then one or more Cyrillic letters ending in
`ович`/`евич`/`ич` as a whole word. -/
def SpecMale (s : List Char) : Prop :=
  ∃ p w e post, s = p ++ w ++ e ++ post ∧ p.all cyrDash = true ∧ w ≠ [] ∧
    w.all cyr = true ∧ e ∈ maleEndings ∧ headIsWord s = true ∧ headIsWord post = false

/-! ## RunDetector: `find_consecutive_students` (lines 186–199)

The source computes `isu["diff"] = isu["ису"].diff()`,
`isu["area"] = (isu["diff"] != 1).cumsum()`, keeps the areas of size ≥ 5
and returns `.head()` of the remaining rows.  The first row's diff is NaN,
so `diff != 1` holds there and the first area label is 1; each later row
increments the label exactly when its difference from the previous ID is
not 1.  Labels are non-decreasing, so `groupby("area")` groups contiguous
rows with equal labels. -/

/-- Area labels of the rows after the first: the label stays `a` when the
difference from the previous ID is exactly 1 and is incremented otherwise
(`(diff != 1).cumsum()`). -/
def areaGo (prev : Int) (a : Nat) : List Int → List Nat
  | [] => []
  | y :: ys =>
      (if y - prev = 1 then a else a + 1) :: areaGo y (if y - prev = 1 then a else a + 1) ys

/-- Area labels of a sorted ID column; the first row always starts area 1
(its diff is NaN, and `NaN != 1` is true). -/
def areaLabels : List Int → List Nat
  | [] => []
  | x :: xs => 1 :: areaGo x 1 xs

/-- Chunk label-annotated rows into the groups of `groupby("area")`:
labels are non-decreasing, so equal labels are contiguous. -/
def chunkGo (a : Nat) (acc : List Int) : List (Int × Nat) → List (List Int)
  | [] => [acc.reverse]
  | q :: rest =>
      if q.2 = a then chunkGo a (q.1 :: acc) rest
      else acc.reverse :: chunkGo q.2 [q.1] rest

/-- Group a label-annotated ID column by its (non-decreasing) labels. -/
def chunkByLabel : List (Int × Nat) → List (List Int)
  | [] => []
  | q :: rest => chunkGo q.2 [q.1] rest

/-- The spec's `findRuns(ids, minLength)`: the groups of the
diff/cumsum/groupby pipeline whose size is at least `minLength`
(the source hardcodes `minLength = 5`). -/
def findRuns (ids : List Int) (minLength : Nat) : List (List Int) :=
  (chunkByLabel (ids.zip (areaLabels ids))).filter (fun g => decide (minLength ≤ g.length))

/-- Stable ascending insertion of an ID (`sort_values(by="ису")`). -/
def insertAsc (x : Int) : List Int → List Int
  | [] => [x]
  | y :: ys => if x ≤ y then x :: y :: ys else y :: insertAsc x ys

/-- Stable ascending sort of the ID column (`sort_values(by="ису", ascending=True)`). -/
def sortAsc : List Int → List Int
  | [] => []
  | x :: xs => insertAsc x (sortAsc xs)

/-- `find_consecutive_students`, restricted to the ID column: sort the IDs,
keep the rows lying in areas of size ≥ 5, and take `.head()` — the first
5 remaining rows. -/
def find_consecutive_students (ids : List Int) : List Int :=
  ((findRuns (sortAsc ids) 5).flatten).take 5

/-! Spec-side reference splitter for the refinement claim: "scan sorted
IDs; start a new group whenever the difference from the previous ID is not
exactly 1". -/

/-- Reference scan: `acc` holds the current group reversed, `prev` the
previous ID; a new group starts when the difference is not 1. -/
def mrGo (prev : Int) (acc : List Int) : List Int → List (List Int)
  | [] => [acc.reverse]
  | y :: ys =>
      if y - prev = 1 then mrGo y (y :: acc) ys
      else acc.reverse :: mrGo y [y] ys

/-- The maximal groups of consecutive integers of a scanned ID column,
following the spec's words. -/
def maximalRuns : List Int → List (List Int)
  | [] => []
  | x :: xs => mrGo x [x] xs

/-- Two adjacent IDs of a run are consecutive: the right one exceeds the
left one by exactly 1. -/
def consec (a b : Int) : Prop := b = a + 1

/-- Maximality at a group border: the last ID of the left group and the
first ID of the right group are not consecutive. -/
def runBreak (g₁ g₂ : List Int) : Prop :=
  ∀ x ∈ g₁.getLast?, ∀ y ∈ g₂.head?, ¬ consec x y

/-! ## Tabular models (rows restricted to the columns the claims use) -/

/-- One row of the slice `find_homonymous_students` works on: surname,
course (`курс`) and group (`группа`). -/
structure Row where
  surname : String
  course : String
  group : String
deriving DecidableEq, Repr

/-- The distinct values of a column in order of first occurrence. -/
def uniqueFirst : List String → List String
  | [] => []
  | x :: xs => x :: (uniqueFirst xs).filter (fun y => y != x)

/-- Stable descending-by-count insertion (earlier values stay first among
equal counts). -/
def insertDesc (p : String × Nat) : List (String × Nat) → List (String × Nat)
  | [] => [p]
  | q :: qs => if q.2 ≤ p.2 then p :: q :: qs else q :: insertDesc p qs

/-- Stable sort of (value, count) pairs by descending count. -/
def sortByCountDesc : List (String × Nat) → List (String × Nat)
  | [] => []
  | p :: ps => insertDesc p (sortByCountDesc ps)

/-- `Series.value_counts()`: occurrence counts of the column's values,
sorted by descending count. -/
def value_counts (xs : List String) : List (String × Nat) :=
  sortByCountDesc ((uniqueFirst xs).map (fun v => (v, xs.count v)))

/-- `sum(numb for numb in column.value_counts() if numb > 1)`: the number
of rows whose value occurs more than once. -/
def homSum (xs : List String) : Nat :=
  (((value_counts xs).filter (fun p => decide (1 < p.2))).map (fun p => p.2)).sum

/-- `any(numb > 1 for numb in column.value_counts())`. -/
def homExist (xs : List String) : Bool :=
  (value_counts xs).any (fun p => decide (1 < p.2))

/-- Code-point lexicographic comparison of character lists (the order
Python's `sorted` and pandas' `sort_values` use on strings). -/
def charsLe : List Char → List Char → Bool
  | [], _ => true
  | _ :: _, [] => false
  | a :: as, b :: bs =>
      if a.toNat < b.toNat then true
      else if b.toNat < a.toNat then false
      else charsLe as bs

/-- Code-point lexicographic comparison of strings. -/
def strLe (a b : String) : Bool := charsLe a.data b.data

/-- Stable ascending insertion of a string (`sorted`, `sort_values`). -/
def insertStr (x : String) : List String → List String
  | [] => [x]
  | y :: ys => if strLe x y then x :: y :: ys else y :: insertStr x ys

/-- Stable ascending sort of a string column. -/
def sortStr : List String → List String
  | [] => []
  | x :: xs => insertStr x (sortStr xs)

/-- Stable insertion of a row by a string key. -/
def insertRowBy (key : Row → String) (x : Row) : List Row → List Row
  | [] => [x]
  | y :: ys => if strLe (key x) (key y) then x :: y :: ys else y :: insertRowBy key x ys

/-- `df.sort_values(by=key, ascending=True)` (stable). -/
def sortRowsBy (key : Row → String) : List Row → List Row
  | [] => []
  | x :: xs => insertRowBy key x (sortRowsBy key xs)

/-- Python's `max(d, key=d.get)` over an association list in iteration
order: the first key attaining the maximal value; `none` when the list is
empty (Python raises `ValueError` there). -/
def maxByGet (l : List (String × Nat)) : Option String :=
  match l with
  | [] => none
  | x :: xs => some ((xs.foldl (fun best y => if best.2 < y.2 then y else best) x).1)

/-- `find_homonymous_students` (lines 22–50): existence of repeated
surnames, their total count, the per-course counts over the course-sorted
slice, and `max(groups_with_homs, key=groups_with_homs.get)` — the latter
raises on an empty dict, modelled as `none`. -/
def find_homonymous_students (rows : List Row) :
    Option (Bool × Nat × List (String × Nat) × String) :=
  let surnames := rows.map Row.surname
  let byCourse := sortRowsBy Row.course rows
  let courses := sortStr (uniqueFirst (byCourse.map Row.course))
  let hom_on_course := courses.map (fun c =>
    (c, homSum ((byCourse.filter (fun r => r.course == c)).map Row.surname)))
  let byGroup := sortRowsBy Row.group rows
  let groups := uniqueFirst (byGroup.map Row.group)
  let groups_with_homs := groups.map (fun g =>
    (g, homSum ((byGroup.filter (fun r => r.group == g)).map Row.surname)))
  (maxByGet groups_with_homs).map (fun mg =>
    (homExist surnames, homSum surnames, hom_on_course, mg))

/-- `faculty_statistics` (lines 87–99): the descending `value_counts`
table of the faculty column; the max faculty is its row 1 and the min
faculty its last row (`.at` raises `KeyError` on an empty table, modelled
as `none`). -/
def faculty_statistics (facs : List String) :
    Option (List (String × Nat) × (String × Nat) × (String × Nat)) :=
  let stats := value_counts facs
  match stats.head?, stats.getLast? with
  | some mx, some mn => some (stats, mx, mn)
  | _, _ => none

/-- Count, among a list of patronymics, those a given gender is assigned. -/
def countGender (g : Gender) (ps : List (List Char)) : Nat :=
  (ps.filter (fun p => gender_identification p == g)).length

/-- `analyze_patronyms` (lines 71–83), restricted to the patronymic
column: the number of empty patronymics, and the `value_counts` buckets of
`gender_identification` over the non-empty ones, as the triple
(female count, male count, unknown count) — a bucket missing from the
pandas series counts 0. -/
def analyze_patronyms (ps : List (List Char)) : Nat × Nat × Nat × Nat :=
  let withPatr := ps.filter (fun p => !p.isEmpty)
  ((ps.filter (fun p => p.isEmpty)).length,
   countGender Gender.female withPatr,
   countGender Gender.male withPatr,
   countGender Gender.unknown withPatr)

/-! ## Word-boundary and split lemmas -/

theorem mem_splits {s a b : List Char} : (a, b) ∈ splits s ↔ s = a ++ b := by
  constructor
  · intro h
    simp only [splits, List.mem_map, List.mem_range] at h
    obtain ⟨i, -, h⟩ := h
    injection h with ha hb
    subst ha
    subst hb
    exact (List.take_append_drop i s).symm
  · rintro rfl
    refine List.mem_map.mpr ⟨a.length, List.mem_range.mpr ?_, ?_⟩
    · simp only [List.length_append]
      omega
    · rw [List.take_left, List.drop_left]

theorem any_splits {s : List Char} {f : List Char × List Char → Bool} :
    (splits s).any f = true ↔ ∃ a b, s = a ++ b ∧ f (a, b) = true := by
  rw [List.any_eq_true]
  constructor
  · rintro ⟨⟨a, b⟩, hm, hf⟩
    exact ⟨a, b, mem_splits.mp hm, hf⟩
  · rintro ⟨a, b, hs, hf⟩
    exact ⟨(a, b), mem_splits.mpr hs, hf⟩

theorem cyr_wordChar {c : Char} (h : cyr c = true) : wordChar c = true := by
  simp [wordChar, h]

theorem headIsWord_append {w r : List Char} (h : w ≠ []) :
    headIsWord (w ++ r) = headIsWord w := by
  cases w with
  | nil => exact absurd rfl h
  | cons c cs => rfl

theorem lastIsWord_append {l e : List Char} (h : e ≠ []) :
    lastIsWord (l ++ e) = lastIsWord e := by
  unfold lastIsWord
  rw [List.getLast?_append]
  cases he : e.getLast? with
  | none => exact absurd (List.getLast?_eq_none_iff.mp he) h
  | some c => rfl

theorem headIsWord_of_cyr {w : List Char} (h : w ≠ []) (hall : w.all cyr = true) :
    headIsWord w = true := by
  cases w with
  | nil => exact absurd rfl h
  | cons c cs =>
      have hc : cyr c = true := by
        rw [List.all_cons, Bool.and_eq_true] at hall
        exact hall.1
      simpa [headIsWord] using cyr_wordChar hc

theorem boundary_right_true {l r : List Char} (h : boundaryOk l r = true)
    (hr : headIsWord r = true) : lastIsWord l = false := by
  cases hb : lastIsWord l with
  | false => rfl
  | true =>
      unfold boundaryOk at h
      rw [hb, hr] at h
      exact absurd h (by decide)

theorem boundary_left_true {l r : List Char} (h : boundaryOk l r = true)
    (hl : lastIsWord l = true) : headIsWord r = false := by
  cases hb : headIsWord r with
  | false => rfl
  | true =>
      unfold boundaryOk at h
      rw [hb, hl] at h
      exact absurd h (by decide)

theorem boundaryOk_of_fw {l r : List Char} (h1 : lastIsWord l = false)
    (h2 : headIsWord r = true) : boundaryOk l r = true := by
  unfold boundaryOk
  rw [h1, h2]
  rfl

theorem boundaryOk_of_wf {l r : List Char} (h1 : lastIsWord l = true)
    (h2 : headIsWord r = false) : boundaryOk l r = true := by
  unfold boundaryOk
  rw [h1, h2]
  rfl

theorem femaleEndings_facts :
    ∀ e ∈ femaleEndings, e ≠ [] ∧ e.all cyr = true ∧ lastIsWord e = true := by decide

theorem maleEndings_facts :
    ∀ e ∈ maleEndings, e ≠ [] ∧ e.all cyr = true ∧ lastIsWord e = true := by decide

/-! ## The regex searches coincide with the spec's declarative patterns -/

theorem femaleSearch_iff (s : List Char) : femaleSearch s = true ↔ SpecFemale s := by
  unfold femaleSearch
  rw [any_splits]
  constructor
  · rintro ⟨pre, rest, rfl, hf⟩
    rw [Bool.and_eq_true] at hf
    obtain ⟨hb1, hf⟩ := hf
    rw [any_splits] at hf
    obtain ⟨t, post, hrest, hf⟩ := hf
    rw [Bool.and_eq_true] at hf
    obtain ⟨hseg, hb2⟩ := hf
    unfold segFemale at hseg
    rw [Bool.and_eq_true] at hseg
    obtain ⟨hall, hany⟩ := hseg
    rw [List.any_eq_true] at hany
    obtain ⟨e, he, hef⟩ := hany
    rw [Bool.and_eq_true] at hef
    obtain ⟨hsuf, hlen⟩ := hef
    rw [List.isSuffixOf_iff_suffix] at hsuf
    obtain ⟨w, rfl⟩ := hsuf
    subst hrest
    have he_ne : e ≠ [] := (femaleEndings_facts e he).1
    have hw_ne : w ≠ [] := by
      intro hw
      subst hw
      simp at hlen
    rw [List.all_append, Bool.and_eq_true] at hall
    have ht_ne : w ++ e ≠ [] := by
      intro h
      exact hw_ne (List.append_eq_nil.mp h).1
    have hh : headIsWord ((w ++ e) ++ post) = true := by
      rw [headIsWord_append ht_ne, headIsWord_append hw_ne]
      exact headIsWord_of_cyr hw_ne hall.1
    have hl : lastIsWord (w ++ e) = true := by
      rw [lastIsWord_append he_ne]
      exact (femaleEndings_facts e he).2.2
    refine ⟨pre, w, e, post, by simp, hw_ne, hall.1, he,
      boundary_right_true hb1 hh, boundary_left_true hb2 hl⟩
  · rintro ⟨pre, w, e, post, rfl, hw_ne, hwc, he, hpre, hpost⟩
    have he_ne : e ≠ [] := (femaleEndings_facts e he).1
    have ht_ne : w ++ e ≠ [] := by
      intro h
      exact hw_ne (List.append_eq_nil.mp h).1
    refine ⟨pre, (w ++ e) ++ post, by simp [List.append_assoc], ?_⟩
    dsimp only
    rw [Bool.and_eq_true]
    constructor
    · refine boundaryOk_of_fw hpre ?_
      rw [headIsWord_append ht_ne, headIsWord_append hw_ne]
      exact headIsWord_of_cyr hw_ne hwc
    · rw [any_splits]
      refine ⟨w ++ e, post, rfl, ?_⟩
      dsimp only
      rw [Bool.and_eq_true]
      constructor
      · unfold segFemale
        rw [Bool.and_eq_true]
        constructor
        · rw [List.all_append, Bool.and_eq_true]
          exact ⟨hwc, (femaleEndings_facts e he).2.1⟩
        · rw [List.any_eq_true]
          refine ⟨e, he, ?_⟩
          rw [Bool.and_eq_true]
          refine ⟨List.isSuffixOf_iff_suffix.mpr (List.suffix_append w e), ?_⟩
          have : 0 < w.length := List.length_pos.mpr hw_ne
          simp only [List.length_append, decide_eq_true_eq]
          omega
      · refine boundaryOk_of_wf ?_ hpost
        rw [lastIsWord_append he_ne]
        exact (femaleEndings_facts e he).2.2

theorem boundary_nil_left {s : List Char} (h : boundaryOk [] s = true) :
    headIsWord s = true := by
  cases hh : headIsWord s with
  | true => rfl
  | false =>
      unfold boundaryOk at h
      rw [hh] at h
      exact absurd h (by decide)

theorem boundary_nil_of {s : List Char} (h : headIsWord s = true) :
    boundaryOk [] s = true := by
  unfold boundaryOk
  rw [h]
  rfl

theorem cyr_cyrDash {c : Char} (h : cyr c = true) : cyrDash c = true := by
  simp [cyrDash, h]

theorem lastCyr_append {l w : List Char} (h : w ≠ []) : lastCyr (l ++ w) = lastCyr w := by
  unfold lastCyr
  rw [List.getLast?_append]
  cases hw : w.getLast? with
  | none => exact absurd (List.getLast?_eq_none_iff.mp hw) h
  | some c => rfl

theorem lastCyr_of_all {w : List Char} (h : w ≠ []) (hall : w.all cyr = true) :
    lastCyr w = true := by
  unfold lastCyr
  rw [List.getLast?_eq_getLast w h]
  exact List.all_eq_true.mp hall _ (List.getLast_mem h)

theorem lastCyr_decomp {v : List Char} (h : lastCyr v = true) :
    ∃ p c, v = p ++ [c] ∧ cyr c = true := by
  have hne : v ≠ [] := by
    intro hv
    subst hv
    exact absurd h (by decide)
  refine ⟨v.dropLast, v.getLast hne, (List.dropLast_append_getLast hne).symm, ?_⟩
  unfold lastCyr at h
  rw [List.getLast?_eq_getLast v hne] at h
  exact h

theorem take_append_sub_length {v e : List Char} :
    (v ++ e).take ((v ++ e).length - e.length) = v := by
  have hl : (v ++ e).length - e.length = v.length := by
    simp [List.length_append]
  rw [hl, List.take_left]

theorem maleSearch_iff (s : List Char) : maleSearch s = true ↔ SpecMale s := by
  unfold maleSearch
  rw [Bool.and_eq_true, any_splits]
  constructor
  · rintro ⟨hb0, t, post, rfl, hf⟩
    rw [Bool.and_eq_true] at hf
    obtain ⟨hseg, hb2⟩ := hf
    unfold segMale at hseg
    rw [List.any_eq_true] at hseg
    obtain ⟨e, he, hef⟩ := hseg
    rw [Bool.and_eq_true] at hef
    obtain ⟨hsuf, hu⟩ := hef
    rw [List.isSuffixOf_iff_suffix] at hsuf
    obtain ⟨v, rfl⟩ := hsuf
    rw [take_append_sub_length] at hu
    simp only [Bool.and_eq_true, Bool.not_eq_true', List.isEmpty_iff] at hu
    obtain ⟨⟨hv_ne, hv_all⟩, hv_last⟩ := hu
    obtain ⟨p, c, rfl, hc⟩ := lastCyr_decomp hv_last
    have he_ne : e ≠ [] := (maleEndings_facts e he).1
    have hpall : p.all cyrDash = true := by
      rw [List.all_append, Bool.and_eq_true] at hv_all
      exact hv_all.1
    refine ⟨p, [c], e, post, rfl, hpall, by simp, by simp [hc], he,
      boundary_nil_left hb0, ?_⟩
    refine boundary_left_true hb2 ?_
    rw [lastIsWord_append he_ne]
    exact (maleEndings_facts e he).2.2
  · rintro ⟨p, w, e, post, rfl, hpall, hw_ne, hwc, he, hhead, hpost⟩
    have he_ne : e ≠ [] := (maleEndings_facts e he).1
    refine ⟨boundary_nil_of hhead, (p ++ w) ++ e, post, rfl, ?_⟩
    dsimp only
    rw [Bool.and_eq_true]
    constructor
    · unfold segMale
      rw [List.any_eq_true]
      refine ⟨e, he, ?_⟩
      rw [Bool.and_eq_true]
      refine ⟨List.isSuffixOf_iff_suffix.mpr (List.suffix_append (p ++ w) e), ?_⟩
      rw [take_append_sub_length]
      simp only [Bool.and_eq_true, Bool.not_eq_true', List.isEmpty_iff]
      have hpw_ne : p ++ w ≠ [] := by
        intro h
        exact hw_ne (List.append_eq_nil.mp h).2
      refine ⟨⟨by simpa using hpw_ne, ?_⟩, ?_⟩
      · rw [List.all_append, Bool.and_eq_true]
        refine ⟨hpall, ?_⟩
        rw [List.all_eq_true] at hwc ⊢
        exact fun c hc => cyr_cyrDash (hwc c hc)
      · rw [lastCyr_append hw_ne]
        exact lastCyr_of_all hw_ne hwc
    · refine boundaryOk_of_wf ?_ hpost
      rw [lastIsWord_append he_ne]
      exact (maleEndings_facts e he).2.2

/-- C1: for every input string, `gender_identification` follows the
ordered, first-match-wins algorithm: it returns `female` exactly when the
string contains a whole-word match of one or more Cyrillic letters
followed by one of the endings евна/овна/ична/инична; otherwise it
returns `male` exactly when the string matches, anchored at the start, an
optional hyphen/dash-joined Cyrillic compound followed by Cyrillic
letters ending in ович/евич/ич as a whole word; otherwise `unknown`. -/
theorem c1_classify_first_match_wins (s : List Char) :
    (gender_identification s = Gender.female ↔ SpecFemale s) ∧
    (gender_identification s = Gender.male ↔ ¬ SpecFemale s ∧ SpecMale s) ∧
    (gender_identification s = Gender.unknown ↔ ¬ SpecFemale s ∧ ¬ SpecMale s) := by
  have HF := femaleSearch_iff s
  have HM := maleSearch_iff s
  unfold gender_identification
  cases hf : femaleSearch s <;> cases hm : maleSearch s <;>
    rw [hf] at HF <;> rw [hm] at HM <;> simp_all

/-- C3 counterexample: on the ASCII string `"Ivanovna"` itself (Latin
letters), `gender_identification` returns `unknown`, not `female` — the
patterns require Cyrillic letters. -/
theorem c3_counterexample :
    gender_identification ("Ivanovna".toList) = Gender.unknown := by decide

/-- C3 (amended): the test vectors hold with the patronymics written in
Cyrillic, which is what the transliterations denote: Ивановна is female,
Иванович is male, Руслан-Бекович is male — with the hyphen and with the
dash U+2013 that appears in the source's character class — and the empty
string and a non-matching Latin string are unknown. -/
theorem c3_test_vectors :
    gender_identification ("Ивановна".toList) = Gender.female ∧
    gender_identification ("Иванович".toList) = Gender.male ∧
    gender_identification ("Руслан-Бекович".toList) = Gender.male ∧
    gender_identification ("Руслан–Бекович".toList) = Gender.male ∧
    gender_identification ("".toList) = Gender.unknown ∧
    gender_identification ("Xyz".toList) = Gender.unknown := by decide

/-! ## The diff/cumsum/groupby pipeline computes the maximal runs -/

theorem chunkGo_zip_areaGo (ys : List Int) :
    ∀ (prev : Int) (a : Nat) (acc : List Int),
    chunkGo a acc (ys.zip (areaGo prev a ys)) = mrGo prev acc ys := by
  induction ys with
  | nil => intro prev a acc; rfl
  | cons y ys ih =>
      intro prev a acc
      rw [areaGo, mrGo]
      by_cases h : y - prev = 1
      · simp only [if_pos h, List.zip_cons_cons, chunkGo, if_pos rfl]
        exact ih y a (y :: acc)
      · simp only [if_neg h, List.zip_cons_cons, chunkGo]
        rw [if_neg (Nat.succ_ne_self a)]
        exact congrArg (acc.reverse :: ·) (ih y (a + 1) [y])

theorem findRuns_eq_filter (ids : List Int) (n : Nat) :
    findRuns ids n = (maximalRuns ids).filter (fun g => decide (n ≤ g.length)) := by
  cases ids with
  | nil => rfl
  | cons x xs =>
      unfold findRuns maximalRuns
      congr 1
      rw [areaLabels, List.zip_cons_cons, chunkByLabel]
      exact chunkGo_zip_areaGo xs x 1 [x]

theorem mrGo_flatten (ys : List Int) :
    ∀ (prev : Int) (acc : List Int),
    (mrGo prev acc ys).flatten = acc.reverse ++ ys := by
  induction ys with
  | nil => intro prev acc; simp [mrGo]
  | cons y ys ih =>
      intro prev acc
      rw [mrGo]
      by_cases h : y - prev = 1
      · rw [if_pos h, ih]
        simp
      · rw [if_neg h]
        simp [ih]

theorem maximalRuns_flatten (ids : List Int) : (maximalRuns ids).flatten = ids := by
  cases ids with
  | nil => rfl
  | cons x xs =>
      rw [maximalRuns, mrGo_flatten]
      rfl

theorem mrGo_groups (ys : List Int) :
    ∀ (prev : Int) (acc : List Int), acc ≠ [] → acc.head? = some prev →
    List.Chain' consec acc.reverse →
    ∀ g ∈ mrGo prev acc ys, g ≠ [] ∧ List.Chain' consec g := by
  induction ys with
  | nil =>
      intro prev acc hne hhead hchain g hg
      rw [mrGo, List.mem_singleton] at hg
      subst hg
      exact ⟨by simpa using hne, hchain⟩
  | cons y ys ih =>
      intro prev acc hne hhead hchain g hg
      rw [mrGo] at hg
      by_cases h : y - prev = 1
      · rw [if_pos h] at hg
        refine ih y (y :: acc) (by simp) rfl ?_ g hg
        rw [List.reverse_cons]
        refine List.Chain'.append hchain (List.chain'_singleton y) ?_
        intro x hx z hz
        rw [List.getLast?_reverse, hhead] at hx
        simp only [Option.mem_def, Option.some.injEq, List.head?_cons] at hx hz
        subst hx
        subst hz
        unfold consec
        omega
      · rw [if_neg h] at hg
        rcases List.mem_cons.mp hg with rfl | hg'
        · exact ⟨by simpa using hne, hchain⟩
        · exact ih y [y] (by simp) rfl (by simp) g hg'

theorem maximalRuns_groups (ids : List Int) :
    ∀ g ∈ maximalRuns ids, g ≠ [] ∧ List.Chain' consec g := by
  cases ids with
  | nil => intro g hg; simp [maximalRuns] at hg
  | cons x xs => exact mrGo_groups xs x [x] (by simp) rfl (by simp)

theorem mrGo_first_head (ys : List Int) :
    ∀ (prev : Int) (acc : List Int), acc ≠ [] →
    ∃ g gs, mrGo prev acc ys = g :: gs ∧ g.head? = acc.getLast? := by
  induction ys with
  | nil =>
      intro prev acc hne
      exact ⟨acc.reverse, [], rfl, List.head?_reverse acc⟩
  | cons y ys ih =>
      intro prev acc hne
      rw [mrGo]
      by_cases h : y - prev = 1
      · rw [if_pos h]
        obtain ⟨g, gs, heq, hh⟩ := ih y (y :: acc) (by simp)
        refine ⟨g, gs, heq, ?_⟩
        rw [hh]
        cases acc with
        | nil => exact absurd rfl hne
        | cons b bs => rw [List.getLast?_cons_cons]
      · rw [if_neg h]
        exact ⟨acc.reverse, _, rfl, List.head?_reverse acc⟩

theorem mrGo_breaks (ys : List Int) :
    ∀ (prev : Int) (acc : List Int), acc ≠ [] → acc.head? = some prev →
    List.Chain' runBreak (mrGo prev acc ys) := by
  induction ys with
  | nil => intro prev acc _ _; exact List.chain'_singleton _
  | cons y ys ih =>
      intro prev acc hne hhead
      rw [mrGo]
      by_cases h : y - prev = 1
      · rw [if_pos h]
        exact ih y (y :: acc) (by simp) rfl
      · rw [if_neg h]
        rw [List.chain'_cons']
        refine ⟨?_, ih y [y] (by simp) rfl⟩
        intro g hg
        obtain ⟨g', gs, heq, hh⟩ := mrGo_first_head ys y [y] (by simp)
        rw [heq] at hg
        simp only [List.head?_cons, Option.mem_def, Option.some.injEq] at hg
        subst hg
        intro x hx z hz
        rw [List.getLast?_reverse, hhead] at hx
        rw [hh] at hz
        simp only [List.getLast?_singleton, Option.mem_def, Option.some.injEq] at hx hz
        subst hx
        subst hz
        unfold consec
        omega

theorem maximalRuns_breaks (ids : List Int) :
    List.Chain' runBreak (maximalRuns ids) := by
  cases ids with
  | nil => exact List.chain'_nil
  | cons x xs => exact mrGo_breaks xs x [x] (by simp) rfl

theorem flatten_sublist_of_sublist {L₁ L₂ : List (List Int)} (h : L₁.Sublist L₂) :
    L₁.flatten.Sublist L₂.flatten := by
  induction h with
  | slnil => exact List.Sublist.refl _
  | cons l _ ih =>
      rw [List.flatten_cons]
      exact ih.trans (List.sublist_append_right l _)
  | cons₂ l _ ih =>
      rw [List.flatten_cons, List.flatten_cons]
      exact ih.append_left l

/-- C2: `findRuns` returns exactly the maximal groups of consecutive
integers of size at least `minLength`: the diff/cumsum/groupby pipeline
equals the reference splitter filtered by size; the reference splitter
partitions the input, its groups are non-empty chains of +1 steps, and
adjacent groups never continue each other; and the two specified examples
hold. -/
theorem c2_findRuns_maximal_runs (ids : List Int) (minLength : Nat) :
    findRuns ids minLength =
      (maximalRuns ids).filter (fun g => decide (minLength ≤ g.length)) ∧
    (maximalRuns ids).flatten = ids ∧
    (∀ g ∈ maximalRuns ids, g ≠ [] ∧ List.Chain' consec g) ∧
    List.Chain' runBreak (maximalRuns ids) ∧
    findRuns [] 5 = [] ∧
    findRuns [1, 2, 3, 4, 5, 9, 10] 5 = [[1, 2, 3, 4, 5]] :=
  ⟨findRuns_eq_filter ids minLength, maximalRuns_flatten ids, maximalRuns_groups ids,
   maximalRuns_breaks ids, by decide, by decide⟩

/-- C4: the total number of IDs appearing in the returned runs never
exceeds the input size, and within every returned group adjacent IDs
differ by exactly 1. -/
theorem c4_runs_conservation (ids : List Int) (n : Nat) :
    ((findRuns ids n).map List.length).sum ≤ ids.length ∧
    ∀ g ∈ findRuns ids n, List.Chain' consec g := by
  constructor
  · have h2 : ids.length = ((maximalRuns ids).map List.length).sum := by
      rw [← List.length_flatten, maximalRuns_flatten]
    rw [findRuns_eq_filter, h2]
    exact ((List.filter_sublist _).map _).sum_le_sum (fun a _ => Nat.zero_le a)
  · intro g hg
    rw [findRuns_eq_filter] at hg
    exact (maximalRuns_groups ids g (List.mem_filter.mp hg).1).2

/-- C5: returned groups are internally ascending, the selected rows form
a subsequence of the (sorted) input in order, and the consumer takes the
first `minLength = 5` rows of the first qualifying group; on the input
[10..15] the detector yields the single run of length 6 and the consumer
returns IDs [10,11,12,13,14]. -/
theorem c5_run_order_and_consumer (ids : List Int) :
    (∀ g ∈ findRuns ids 5, List.Chain' (fun a b => a < b) g) ∧
    ((findRuns ids 5).flatten).Sublist ids ∧
    (∀ g gs, findRuns (sortAsc ids) 5 = g :: gs →
      find_consecutive_students ids = g.take 5) ∧
    findRuns [10, 11, 12, 13, 14, 15] 5 = [[10, 11, 12, 13, 14, 15]] ∧
    find_consecutive_students [10, 11, 12, 13, 14, 15] = [10, 11, 12, 13, 14] := by
  refine ⟨?_, ?_, ?_, by decide, by decide⟩
  · intro g hg
    rw [findRuns_eq_filter] at hg
    refine ((maximalRuns_groups ids g (List.mem_filter.mp hg).1).2).imp ?_
    intro a b hab
    unfold consec at hab
    omega
  · have h1 : (findRuns ids 5).Sublist (maximalRuns ids) := by
      rw [findRuns_eq_filter]
      exact List.filter_sublist _
    have := flatten_sublist_of_sublist h1
    rwa [maximalRuns_flatten] at this
  · intro g gs heq
    unfold find_consecutive_students
    rw [heq, List.flatten_cons]
    have hg5 : 5 ≤ g.length := by
      have hmem : g ∈ findRuns (sortAsc ids) 5 := by
        rw [heq]
        exact List.mem_cons_self g gs
      rw [findRuns_eq_filter] at hmem
      simpa using (List.mem_filter.mp hmem).2
    rw [List.take_append_eq_append_take]
    have h0 : 5 - g.length = 0 := by omega
    rw [h0, List.take_zero, List.append_nil]

/-- Witness for C5: on the concrete input [10..15] the detector's first
group is the whole run and the consumer returns its first 5 IDs. -/
theorem c5_witness :
    find_consecutive_students [10, 11, 12, 13, 14, 15] =
      [(10 : Int), 11, 12, 13, 14, 15].take 5 :=
  (c5_run_order_and_consumer [10, 11, 12, 13, 14, 15]).2.2.1
    [10, 11, 12, 13, 14, 15] [] (by decide)

/-! ## Tabular claims -/

/-- C6 (behaviour at the failing input): on an empty roster the models of
`find_homonymous_students` and `faculty_statistics` return `none` — the
Python originals raise there (`max()` over the empty groups dict, `.at`
lookup in the empty statistics table) instead of yielding empty results. -/
theorem c6_empty_roster_fails :
    find_homonymous_students [] = none ∧ faculty_statistics [] = none := by decide

theorem filter_isEmpty_partition (ps : List (List Char)) :
    (ps.filter (fun p => p.isEmpty)).length + (ps.filter (fun p => !p.isEmpty)).length
      = ps.length := by
  induction ps with
  | nil => rfl
  | cons p pr ih =>
      cases hp : p.isEmpty <;> simp [List.filter_cons, hp] <;> omega

theorem countGender_partition (l : List (List Char)) :
    countGender Gender.female l + countGender Gender.male l + countGender Gender.unknown l
      = l.length := by
  induction l with
  | nil => rfl
  | cons p ps ih =>
      cases hg : gender_identification p <;>
        simp only [countGender, List.filter_cons, hg] at ih ⊢ <;>
        simp <;> omega

/-- C8: round-trip conservation — the three gender buckets of
`analyze_patronyms` sum to the number of records with a non-empty
patronymic, and that number plus the without-patronymic count is the
total record count. -/
theorem c8_roundtrip (ps : List (List Char)) :
    (analyze_patronyms ps).2.1 + (analyze_patronyms ps).2.2.1 + (analyze_patronyms ps).2.2.2
        = (ps.filter (fun p => !p.isEmpty)).length ∧
    (analyze_patronyms ps).1 + (ps.filter (fun p => !p.isEmpty)).length = ps.length := by
  constructor
  · exact countGender_partition _
  · exact filter_isEmpty_partition ps

/-- C9: for a roster with faculty counts A:10, B:20, C:5,
`faculty_statistics` reports (B,20) as the faculty with the most students
and (C,5) as the faculty with the fewest. -/
theorem c9_faculty_statistics :
    faculty_statistics
        (List.replicate 10 "A" ++ List.replicate 20 "B" ++ List.replicate 5 "C") =
      some ([("B", 20), ("A", 10), ("C", 5)], ("B", 20), ("C", 5)) := by decide

theorem any_gt_one_iff_sum (l : List (String × Nat)) :
    l.any (fun p => decide (1 < p.2)) = true ↔
      0 < ((l.filter (fun p => decide (1 < p.2))).map (fun p => p.2)).sum := by
  induction l with
  | nil => simp
  | cons q qs ih =>
      cases hq : decide (1 < q.2) with
      | true =>
          have hq2 : 1 < q.2 := of_decide_eq_true hq
          have hfc : List.filter (fun p => decide (1 < p.2)) (q :: qs)
              = q :: List.filter (fun p => decide (1 < p.2)) qs :=
            List.filter_cons_of_pos (by exact hq)
          rw [hfc, List.map_cons, List.sum_cons]
          constructor
          · intro _
            omega
          · intro _
            simp [List.any_cons, hq]
      | false =>
          have hfc : List.filter (fun p => decide (1 < p.2)) (q :: qs)
              = List.filter (fun p => decide (1 < p.2)) qs :=
            List.filter_cons_of_neg (by simp [hq])
          rw [hfc, List.any_cons]
          simp only [hq, Bool.false_or]
          exact ih

theorem homExist_iff (xs : List String) : homExist xs = true ↔ 0 < homSum xs :=
  any_gt_one_iff_sum (value_counts xs)

/-- C10: whenever `find_homonymous_students` succeeds, its boolean
"homonyms exist" component is true exactly when its total homonym count
component is positive. -/
theorem c10_exist_iff_count_pos (rows : List Row)
    (r : Bool × Nat × List (String × Nat) × String)
    (h : find_homonymous_students rows = some r) :
    r.1 = true ↔ 0 < r.2.1 := by
  simp only [find_homonymous_students] at h
  rw [Option.map_eq_some'] at h
  obtain ⟨mg, -, hr⟩ := h
  subst hr
  exact homExist_iff (rows.map Row.surname)

/-- Witness for C10: a roster with one repeated surname, on which
`find_homonymous_students` succeeds with the pair (exist = true, count = 2). -/
theorem c10_witness :
    find_homonymous_students [⟨"Ivanov", "1", "G1"⟩, ⟨"Ivanov", "1", "G1"⟩]
        = some (true, 2, [("1", 2)], "G1") ∧
      ((true : Bool) = true ↔ 0 < (2 : Nat)) :=
  ⟨by decide,
   c10_exist_iff_count_pos [⟨"Ivanov", "1", "G1"⟩, ⟨"Ivanov", "1", "G1"⟩]
     (true, 2, [("1", 2)], "G1") (by decide)⟩

end CS102
